import Mathlib

/-!
Verification development for the lorelai streaming response translator.

The definitions below are a shallow embedding of the TypeScript source:

* `extractReasoningFromContent` embeds the function of the same name in
  src/lib/azure-foundry/reasoning.ts (regex split on complete
  thinking-tag spans, tag stripping, trimming, blank-line join).
* `streamFoundryText` / `stepChunk` embed the per-chunk event generation of
  the async generator streamFoundryText in the streaming module
  (text deltas, inline reasoning extraction, the out-of-band
  reasoning channel, the position-keyed tool-call accumulation table with
  JavaScript Map semantics, the tool-execution phase on a tool-calls
  finish reason, and the finish event with optional usage).
* `streamFoundryObject` embeds the partial-JSON materialization generator of
  the same name; JSON.parse is a parameter since it is a host builtin.
* `zodToJsonSchema` embeds the schema converter in
  src/lib/azure-foundry/tools.ts.
* `chatRoutePOST` embeds the Foundry streaming body of the chat route
  handler (main loop, single tool-execution phase, one continuation round).

JavaScript truthiness of strings (empty string is falsy) is embedded by the
`truthyS` / `truthyO` predicates.  JavaScript String.prototype.trim is
embedded with `Char.isWhitespace` (space, tab, CR, LF), which agrees with
the JS definition on all inputs appearing here.
-/

namespace Lorelai

/-- JS truthiness for a string: truthy iff nonempty. -/
abbrev truthyS (s : String) : Prop := s ≠ ""

/-- JS truthiness for an optional string field: present and nonempty. -/
abbrev truthyO (o : Option String) : Prop := o.getD "" ≠ ""

/-! ## Reasoning extraction (src/lib/azure-foundry/reasoning.ts) -/

/-- The literal opening delimiter of a reasoning span. -/
def openTag : List Char := "<thinking>".data

/-- The literal closing delimiter of a reasoning span. -/
def closeTag : List Char := "</thinking>".data

/-- Split a character list at the first occurrence of a literal pattern,
returning the part before the pattern and the part after it.  Mirrors the
left-to-right scanning of the JS regex engine for a literal alternative. -/
def splitFirst (pat : List Char) : List Char → Option (List Char × List Char)
  | [] => if pat.isPrefixOf ([] : List Char) then some ([], []) else none
  | c :: rest =>
    if pat.isPrefixOf (c :: rest) then some ([], (c :: rest).drop pat.length)
    else (splitFirst pat rest).map (fun p => (c :: p.1, p.2))

theorem splitFirst_eq (pat : List Char) :
    ∀ s pre suf, splitFirst pat s = some (pre, suf) → s = pre ++ pat ++ suf := by
  intro s
  induction s with
  | nil =>
    intro pre suf h
    simp only [splitFirst] at h
    split at h
    · rename_i hp
      have : pat = [] := List.prefix_nil.mp (List.isPrefixOf_iff_prefix.mp hp)
      cases h
      simp [this]
    · cases h
  | cons c rest ih =>
    intro pre suf h
    simp only [splitFirst] at h
    split at h
    · rename_i hp
      have hpre := List.isPrefixOf_iff_prefix.mp hp
      obtain ⟨t, ht⟩ := hpre
      cases h
      simp only [List.nil_append]
      rw [← ht, List.drop_left]
    · rcases hrec : splitFirst pat rest with _ | ⟨p1, p2⟩ <;> rw [hrec] at h
      · cases h
      · simp only [Option.map_some', Option.some.injEq, Prod.mk.injEq] at h
        obtain ⟨h1, h2⟩ := h
        subst h1
        subst h2
        have := ih p1 p2 hrec
        simp [this]

/-- Scan a character list for complete thinking spans, in the regex
non-greedy left-to-right style of the source: repeatedly take the first
opening tag and the first closing tag after it.  Returns the list of inner
span texts and the text with the spans removed.  The first argument is
recursion fuel; `length + 1` is always sufficient since every found span
consumes at least one character. -/
def scanSpansF : Nat → List Char → List (List Char) × List Char
  | 0, s => ([], s)
  | fuel + 1, s =>
    match splitFirst openTag s with
    | none => ([], s)
    | some (pre, rest) =>
      match splitFirst closeTag rest with
      | none => ([], s)
      | some (inner, rest2) =>
        let r := scanSpansF fuel rest2
        (inner :: r.1, pre ++ r.2)

/-- Span scan with sufficient fuel. -/
def scanSpans (s : List Char) : List (List Char) × List Char :=
  scanSpansF (s.length + 1) s

/-- Remove every occurrence of an opening or closing thinking tag, scanning
left to right once (the JS replace with the tag alternation regex).  The
first argument is recursion fuel; `length + 1` is always sufficient. -/
def removeTagsF : Nat → List Char → List Char
  | 0, s => s
  | fuel + 1, s =>
    if openTag.isPrefixOf s then removeTagsF fuel (s.drop openTag.length)
    else if closeTag.isPrefixOf s then removeTagsF fuel (s.drop closeTag.length)
    else
      match s with
      | [] => []
      | c :: rest => c :: removeTagsF fuel rest

/-- Tag removal with sufficient fuel. -/
def removeTags (s : List Char) : List Char := removeTagsF (s.length + 1) s

/-- JS String.prototype.trim on a character list. -/
def jsTrim (s : List Char) : List Char :=
  ((s.dropWhile Char.isWhitespace).reverse.dropWhile Char.isWhitespace).reverse

/-- Join character lists with a separator (Array.prototype.join). -/
def joinSep (sep : List Char) : List (List Char) → List Char
  | [] => []
  | [x] => x
  | x :: y :: rest => x ++ sep ++ joinSep sep (y :: rest)

/-- Embedding of extractReasoningFromContent from
src/lib/azure-foundry/reasoning.ts: if the content contains at least one
complete thinking span, the reasoning is the inner texts of all spans with
tags stripped and trimmed, joined with a blank line, and the text is the
content with the spans removed and trimmed; otherwise the reasoning is null
and the text is the content unchanged. -/
def extractReasoningFromContent (content : String) : Option String × String :=
  let sc := scanSpans content.data
  if sc.1.isEmpty then (none, content)
  else
    (some (String.mk (joinSep "\n\n".data (sc.1.map (fun inn => jsTrim (removeTags inn))))),
     String.mk (jsTrim sc.2))

/-! ## Chunk data model (the upstream completion delta shape) -/

/-- One tool-call fragment inside a chunk delta: a stable integer position,
an optional call identifier, an optional function name, and an optional
fragment of JSON-encoded argument text. -/
structure ToolCallFragment where
  index : Nat
  id : Option String
  name : Option String
  args : Option String
deriving DecidableEq

/-- Raw usage counters as delivered on the terminal chunk. -/
structure RawUsage where
  prompt_tokens : Nat
  completion_tokens : Nat
  total_tokens : Nat
deriving DecidableEq

/-- Normalized usage shape of the finish event. -/
structure NormUsage where
  promptTokens : Nat
  completionTokens : Nat
  totalTokens : Nat
deriving DecidableEq

/-- One upstream chunk (the single choice delta plus usage): an optional
out-of-band reasoning fragment, an optional text fragment, tool-call
fragments, an optional finish reason, and optional usage counters. -/
structure Chunk where
  reasoning_content : Option String := none
  content : Option String := none
  tool_calls : List ToolCallFragment := []
  finish_reason : Option String := none
  usage : Option RawUsage := none
deriving DecidableEq

/-- Conversion of raw usage counters into the normalized usage shape, as in
the finish branch of streamFoundryText. -/
def convUsage (u : RawUsage) : NormUsage :=
  ⟨u.prompt_tokens, u.completion_tokens, u.total_tokens⟩

/-! ## Tool-call accumulation table (JavaScript Map semantics) -/

/-- One accumulation entry: call identifier, function name, and the growing
JSON-argument text. -/
structure ToolAcc where
  id : String
  name : String
  arguments : String
deriving DecidableEq

/-- Lookup in the accumulation table (Map.prototype.get). -/
def mapLookup : List (Nat × ToolAcc) → Nat → Option ToolAcc
  | [], _ => none
  | p :: rest, i => if p.1 = i then some p.2 else mapLookup rest i

/-- Map.prototype.set: replace in place if the key exists, else append.
Iteration order of a JS Map is insertion order, which this list preserves. -/
def mapSet (tbl : List (Nat × ToolAcc)) (i : Nat) (v : ToolAcc) : List (Nat × ToolAcc) :=
  match tbl with
  | [] => [(i, v)]
  | p :: rest => if p.1 = i then (i, v) :: rest else p :: mapSet rest i v

/-- One tool-call fragment applied to the accumulation table.  Mirrors the
body of the delta.tool_calls loop shared by streamFoundryText and the chat
route handler: a fragment with a (truthy) identifier starts a fresh entry at
its position, a fragment with only (truthy) argument text appends to an
existing entry, and anything else is dropped. -/
def applyFrag (tbl : List (Nat × ToolAcc)) (f : ToolCallFragment) : List (Nat × ToolAcc) :=
  if truthyO f.id then
    mapSet tbl f.index ⟨f.id.getD "", f.name.getD "", f.args.getD ""⟩
  else
    match mapLookup tbl f.index with
    | some acc =>
      if truthyO f.args then
        mapSet tbl f.index { acc with arguments := acc.arguments ++ f.args.getD "" }
      else tbl
    | none => tbl

/-! ## streamFoundryText normalized events -/

/-- The normalized event vocabulary yielded by streamFoundryText.  Tool
results carry the result rendered as a string (the result value itself is
opaque to the translator). -/
inductive StreamEvent where
  | reasoningDelta (s : String)
  | textDelta (s : String)
  | toolCall (id name arguments : String)
  | toolResult (toolCallId : String) (result : String) (isError : Bool)
  | finish (reason : String) (usage : Option NormUsage)
deriving DecidableEq

/-- The onToolCall handler: from call identifier, function name and raw
argument string to a result, or a thrown error message. -/
def ToolExec := String → String → String → Except String String

/-- Events of the out-of-band reasoning channel branch of the chunk loop. -/
def reasoningChannelEvents (o : Option String) : List StreamEvent :=
  if truthyO o then [StreamEvent.reasoningDelta (o.getD "")] else []

/-- Events produced for one truthy text fragment: inline reasoning
extraction, then the visible text, falling back to the raw fragment when
neither a trimmed remainder nor reasoning was extracted. -/
def contentEventsOf (c : String) : List StreamEvent :=
  let rt := extractReasoningFromContent c
  let rs := rt.1.getD ""
  (if truthyS rs then [StreamEvent.reasoningDelta rs] else []) ++
  (if truthyS rt.2 then [StreamEvent.textDelta rt.2]
   else if truthyS rs then [] else [StreamEvent.textDelta c])

/-- Events of the delta.content branch of the chunk loop. -/
def contentEvents (o : Option String) : List StreamEvent :=
  if truthyO o then contentEventsOf (o.getD "") else []

/-- Events of executing one accumulated tool call through the optional
handler: a successful result or a caught error message, or nothing when no
handler was supplied. -/
def execEvents (exec : Option ToolExec) (acc : ToolAcc) : List StreamEvent :=
  match exec with
  | none => []
  | some f =>
    match f acc.id acc.name acc.arguments with
    | Except.ok r => [StreamEvent.toolResult acc.id r false]
    | Except.error m => [StreamEvent.toolResult acc.id m true]

/-- Events of the tool-execution phase: one tool-call event per accumulated
entry, in table (insertion) order, each immediately followed by its
execution events. -/
def toolPhaseEvents (exec : Option ToolExec) (tbl : List (Nat × ToolAcc)) : List StreamEvent :=
  (tbl.map (fun p =>
    StreamEvent.toolCall p.2.id p.2.name p.2.arguments :: execEvents exec p.2)).flatten

/-- Events of the finish-reason branch: the tool phase when the reason is
tool_calls and the table is nonempty, then the finish event with the usage
counters converted when present and omitted entirely when absent. -/
def finishEvents (exec : Option ToolExec) (tbl : List (Nat × ToolAcc)) (ch : Chunk) :
    List StreamEvent :=
  match ch.finish_reason with
  | none => []
  | some fin =>
    (if fin = "tool_calls" ∧ tbl ≠ [] then toolPhaseEvents exec tbl else []) ++
    [StreamEvent.finish fin (ch.usage.map convUsage)]

/-- Translator state: the accumulation table and the running buffers. -/
structure TState where
  table : List (Nat × ToolAcc)
  textBuffer : String
  reasoningBuffer : String
deriving DecidableEq

/-- Process one chunk, in source order: out-of-band reasoning channel, text
content, tool-call fragments, finish reason.  Returns the updated state and
the events yielded for this chunk. -/
def stepChunk (exec : Option ToolExec) (st : TState) (ch : Chunk) : TState × List StreamEvent :=
  let tbl := ch.tool_calls.foldl applyFrag st.table
  let rb1 :=
    if truthyO ch.reasoning_content then st.reasoningBuffer ++ ch.reasoning_content.getD ""
    else st.reasoningBuffer
  let rb2 :=
    if truthyO ch.content then
      let rs := (extractReasoningFromContent (ch.content.getD "")).1.getD ""
      if truthyS rs then rb1 ++ rs else rb1
    else rb1
  let tb :=
    if truthyO ch.content then st.textBuffer ++ ch.content.getD "" else st.textBuffer
  (⟨tbl, tb, rb2⟩,
   reasoningChannelEvents ch.reasoning_content ++ contentEvents ch.content ++
     finishEvents exec tbl ch)

/-- Run the chunk loop from a given state, concatenating yielded events. -/
def runFrom (exec : Option ToolExec) (st : TState) : List Chunk → TState × List StreamEvent
  | [] => (st, [])
  | ch :: rest =>
    let r1 := stepChunk exec st ch
    let r2 := runFrom exec r1.1 rest
    (r2.1, r1.2 ++ r2.2)

/-- Embedding of the streamFoundryText generator: the full event sequence
produced for a chunk stream (with empty initial buffers and table), together
with the final translator state. -/
def streamFoundryText (exec : Option ToolExec) (chunks : List Chunk) :
    TState × List StreamEvent :=
  runFrom exec ⟨[], "", ""⟩ chunks

/-! ## Event projections -/

/-- The payload of a text-delta event. -/
def textDeltaOf : StreamEvent → Option String
  | StreamEvent.textDelta s => some s
  | _ => none

/-- The payload of a reasoning-delta event. -/
def reasoningDeltaOf : StreamEvent → Option String
  | StreamEvent.reasoningDelta s => some s
  | _ => none

/-- The call identifier of a tool-call event. -/
def toolCallIdOf : StreamEvent → Option String
  | StreamEvent.toolCall i _ _ => some i
  | _ => none

/-- The call identifier of a tool-result event. -/
def toolResultIdOf : StreamEvent → Option String
  | StreamEvent.toolResult i _ _ => some i
  | _ => none

/-- The reason and usage of a finish event. -/
def finishOf : StreamEvent → Option (String × Option NormUsage)
  | StreamEvent.finish r u => some (r, u)
  | _ => none

/-! ## streamFoundryObject (partial-JSON materialization) -/

/-- One chunk of the structured-output stream: only the text fragment and
the finish reason are consulted by streamFoundryObject. -/
structure ObjChunk where
  content : Option String := none
  finish_reason : Option String := none
deriving DecidableEq

/-- Output of streamFoundryObject: partial objects and the finish marker. -/
inductive ObjEvent (α : Type) where
  | object (o : α)
  | finish
deriving DecidableEq

/-- State of the object streamer: the accumulated content buffer plus
counters of the parse attempts made mid-stream and at the finish signal. -/
structure ObjState where
  buffer : String
  midAttempts : Nat
  finAttempts : Nat
deriving DecidableEq

/-- One chunk of the streamFoundryObject loop: append a truthy content
fragment to the buffer and attempt one parse of the whole buffer, yielding
the object on success and nothing on failure; on a finish reason make
exactly one more parse attempt and then yield the finish marker.  The parse
function is a parameter since JSON.parse is a host builtin. -/
def stepObj {α : Type} (parse : String → Option α) (st : ObjState) (ch : ObjChunk) :
    ObjState × List (ObjEvent α) :=
  let r1 :=
    if truthyO ch.content then
      let buf := st.buffer ++ ch.content.getD ""
      let st1 : ObjState := ⟨buf, st.midAttempts + 1, st.finAttempts⟩
      match parse buf with
      | some v => (st1, [ObjEvent.object v])
      | none => (st1, [])
    else (st, [])
  if ch.finish_reason.isSome then
    let st2 : ObjState := ⟨r1.1.buffer, r1.1.midAttempts, r1.1.finAttempts + 1⟩
    (st2,
      r1.2 ++
        ((match parse r1.1.buffer with
          | some v => [ObjEvent.object v]
          | none => []) ++ [ObjEvent.finish]))
  else r1

/-- Run the streamFoundryObject loop from a given state. -/
def runObjFrom {α : Type} (parse : String → Option α) (st : ObjState) :
    List ObjChunk → ObjState × List (ObjEvent α)
  | [] => (st, [])
  | ch :: rest =>
    let r1 := stepObj parse st ch
    let r2 := runObjFrom parse r1.1 rest
    (r2.1, r1.2 ++ r2.2)

/-- Embedding of the streamFoundryObject generator. -/
def streamFoundryObject {α : Type} (parse : String → Option α) (chunks : List ObjChunk) :
    ObjState × List (ObjEvent α) :=
  runObjFrom parse ⟨"", 0, 0⟩ chunks

/-- The last object yielded by an event sequence, if any: the authoritative
final parse result of the structured-output stream. -/
def lastObject {α : Type} (evs : List (ObjEvent α)) : Option α :=
  evs.foldl (fun acc e => match e with | ObjEvent.object o => some o | ObjEvent.finish => acc) none

/-! ## zodToJsonSchema (src/lib/azure-foundry/tools.ts) -/

/-- The structured validation-schema representation handled by the
converter: the constructors the source dispatches on by typeName, plus a
fallback for anything else. -/
inductive ZodType where
  | zobject (fields : List (String × ZodType))
  | zstring (desc : Option String)
  | znumber (desc : Option String)
  | zboolean
  | zarray (elem : ZodType)
  | zoptional (inner : ZodType)
  | zenum (values : List String)
  | zunion (first : ZodType) (rest : List ZodType)
  | zother

/-- The JSON Schema fragments the converter produces.  jobject carries the
properties and the optional required list (omitted when empty); jgeneric is
the fallback bare object schema. -/
inductive JsonSchema where
  | jobject (properties : List (String × JsonSchema)) (required : Option (List String))
  | jstring (desc : Option String)
  | jnumber (desc : Option String)
  | jboolean
  | jarray (items : JsonSchema)
  | jenum (values : List String)
  | jgeneric

/-- Whether a schema is an optional wrapper (the typeName check that
decides membership in the required list). -/
def isZodOptional : ZodType → Bool
  | ZodType.zoptional _ => true
  | _ => false

/-- The required keys of an object schema: the keys whose value is not an
optional wrapper, in field order. -/
def zRequiredKeys (fields : List (String × ZodType)) : List String :=
  (fields.filter (fun p => !isZodOptional p.2)).map (fun p => p.1)

mutual

/-- Embedding of zodToJsonSchema: object-with-properties (required = all
non-optional keys, omitted when empty), string and number (with optional
description), boolean, array-of-T, optional-wrapper (unwrapped), enum of
strings, union degraded to its first alternative, and a generic-object
fallback. -/
def zodToJsonSchema : ZodType → JsonSchema
  | ZodType.zobject fields =>
    let req := zRequiredKeys fields
    JsonSchema.jobject (zFieldSchemas fields) (if req.length > 0 then some req else none)
  | ZodType.zstring d => JsonSchema.jstring d
  | ZodType.znumber d => JsonSchema.jnumber d
  | ZodType.zboolean => JsonSchema.jboolean
  | ZodType.zarray t => JsonSchema.jarray (zodToJsonSchema t)
  | ZodType.zoptional inner => zodToJsonSchema inner
  | ZodType.zenum vs => JsonSchema.jenum vs
  | ZodType.zunion first _ => zodToJsonSchema first
  | ZodType.zother => JsonSchema.jgeneric

/-- Conversion of the property list of an object schema, key by key. -/
def zFieldSchemas : List (String × ZodType) → List (String × JsonSchema)
  | [] => []
  | (k, v) :: rest => (k, zodToJsonSchema v) :: zFieldSchemas rest

end

/-! ## Chat route POST handler, Foundry streaming body -/

/-- The data-stream events the route handler writes (the parts the claims
concern: text parts and the trailing finish marker; the title and error
events do not interact with the tool protocol). -/
inductive DataEvent where
  | textPart (s : String)
  | finishMark
deriving DecidableEq

/-- Whether a data-stream event is a plain text part. -/
def isTextPart : DataEvent → Bool
  | DataEvent.textPart _ => true
  | DataEvent.finishMark => false

/-- The tool dispatch of the route handler, abstracting the switch over
registered tool names, the JSON argument parse and the execute call: from
function name and raw argument string to a result rendering or a caught
error message. -/
def PostExec := String → String → Except String String

/-- Text events of the main chunk loop of the handler: one text part per
truthy content fragment (tool-call fragments and finish reasons produce no
events in this loop). -/
def mainLoopEvents (chunks : List Chunk) : List DataEvent :=
  (chunks.map (fun ch =>
    if truthyO ch.content then [DataEvent.textPart (ch.content.getD "")] else [])).flatten

/-- All tool-call fragments of a chunk stream, in arrival order. -/
def allFrags (chunks : List Chunk) : List ToolCallFragment :=
  (chunks.map (fun ch => ch.tool_calls)).flatten

/-- The accumulation table built by the main loop of the handler. -/
def postAccum (chunks : List Chunk) : List (Nat × ToolAcc) :=
  (allFrags chunks).foldl applyFrag []

/-- The informational line written for one second-round tool call. -/
def additionalToolLine (name : String) : String :=
  "\n\n[Additional Tool: " ++ name ++ " - Requires Approval]\n"

/-- One chunk of the continuation loop: a text part for truthy content,
accumulation of tool-call fragments into the (cleared) table, and — when
the chunk carries a tool_calls finish reason and the table is nonempty —
one informational text part per accumulated entry, never an execution. -/
def contStep (tbl : List (Nat × ToolAcc)) (ch : Chunk) :
    List (Nat × ToolAcc) × List DataEvent :=
  let evs1 := if truthyO ch.content then [DataEvent.textPart (ch.content.getD "")] else []
  let tbl2 := ch.tool_calls.foldl applyFrag tbl
  let evs2 :=
    if ch.finish_reason = some "tool_calls" ∧ tbl2 ≠ [] then
      tbl2.map (fun p => DataEvent.textPart (additionalToolLine p.2.name))
    else []
  (tbl2, evs1 ++ evs2)

/-- The continuation chunk loop of the handler. -/
def contLoop (tbl : List (Nat × ToolAcc)) : List Chunk → List DataEvent
  | [] => []
  | ch :: rest =>
    let r := contStep tbl ch
    r.2 ++ contLoop r.1 rest

/-- Result of one run of the Foundry streaming body of the POST handler:
the events of the main loop, the tool calls handed to the tool dispatch
(name and full argument string, in table order), the synthetic tool-result
turns built for the continuation request, and the events of the
continuation loop. -/
structure PostRun where
  mainEvents : List DataEvent
  executed : List (String × String)
  toolResults : List (String × Except String String)
  contEvents : List DataEvent

/-- Embedding of the Foundry streaming body of the chat route POST handler:
consume the main stream (text parts out, tool-call fragments accumulated);
if at least one call accumulated, execute every accumulated call once,
build the synthetic tool-result turns, clear the table, and consume the
continuation stream, where further tool calls are only surfaced as
informational text parts; the continuation stream is an input since it is
produced by the external completion source. -/
def chatRoutePOST (exec : PostExec) (main cont : List Chunk) : PostRun :=
  let acc := postAccum main
  if acc = [] then
    { mainEvents := mainLoopEvents main
      executed := []
      toolResults := []
      contEvents := [] }
  else
    { mainEvents := mainLoopEvents main
      executed := acc.map (fun p => (p.2.name, p.2.arguments))
      toolResults := acc.map (fun p => (p.2.id, exec p.2.name p.2.arguments))
      contEvents := contLoop [] cont }

/-- The full ordered event sequence written to the data stream by one run:
main-loop events, continuation events, then the trailing finish marker. -/
def postEvents (r : PostRun) : List DataEvent :=
  r.mainEvents ++ r.contEvents ++ [DataEvent.finishMark]

/-! ## Concrete inputs and derived per-fragment views used by the claims -/

/-- Concrete stream for the C1 counterexample: one tool call accumulated,
a tool_calls finish reason, and no onToolCall handler supplied. -/
def csC1 : List Chunk :=
  [{ tool_calls := [⟨0, some "call_1", some "getWeather", some "ab"⟩],
     finish_reason := some "tool_calls" }]

/-- Concrete stream for the C6 counterexample: the identifier-bearing
fragment for position 1 arrives before the one for position 0. -/
def csC6 : List Chunk :=
  [{ tool_calls := [⟨1, some "b", some "toolB", some ""⟩,
                    ⟨0, some "a", some "toolA", some ""⟩] },
   { finish_reason := some "tool_calls" }]

/-- A concrete handler used by witnesses. -/
def okExec : ToolExec := fun _ _ _ => Except.ok "ok"

/-- The effect of one fragment on the entry at its own position: an
identifier-bearing fragment restarts the entry, an argument-bearing
fragment appends to an existing entry, anything else changes nothing. -/
def applyFragAt (o : Option ToolAcc) (f : ToolCallFragment) : Option ToolAcc :=
  if truthyO f.id then some ⟨f.id.getD "", f.name.getD "", f.args.getD ""⟩
  else
    match o with
    | some acc =>
      if truthyO f.args then some { acc with arguments := acc.arguments ++ f.args.getD "" }
      else some acc
    | none => none

/-- A concrete parse function for the C7 witness. -/
def parseW : String → Option Nat := fun s => if s = "42" then some 42 else none

/-- The visible-text contribution of one text fragment, read off the
branch structure of the content handling in streamFoundryText: the
extracted text when truthy; nothing when reasoning was extracted and the
remaining text is empty; the raw fragment otherwise. -/
def vOf (c : String) : String :=
  let rt := extractReasoningFromContent c
  if truthyS rt.2 then rt.2
  else if truthyS (rt.1.getD "") then "" else c

/-- The reasoning contribution of one text fragment: the extracted
reasoning string (empty when no span was found). -/
def rOf (c : String) : String := (extractReasoningFromContent c).1.getD ""

/-- C3 counterexample input: one fragment with a span and a leading space
before the visible remainder. -/
def csC3 : List Chunk := [{ content := some "<thinking>t</thinking> B" }]

/-! ## Supporting lemmas -/

theorem sjoin_cons (a : String) (l : List String) :
    String.join (a :: l) = a ++ String.join l := by
  apply String.ext
  simp

theorem sjoin_append (l1 l2 : List String) :
    String.join (l1 ++ l2) = String.join l1 ++ String.join l2 := by
  apply String.ext
  simp

theorem runFrom_append (exec : Option ToolExec) (st : TState) (l1 l2 : List Chunk) :
    runFrom exec st (l1 ++ l2) =
      ((runFrom exec (runFrom exec st l1).1 l2).1,
       (runFrom exec st l1).2 ++ (runFrom exec (runFrom exec st l1).1 l2).2) := by
  induction l1 generalizing st with
  | nil => simp [runFrom]
  | cons ch rest ih => simp [runFrom, ih]

/-- Elements of the out-of-band reasoning branch are reasoning deltas. -/
theorem filterMap_reasoningChannel {β : Type} (p : StreamEvent → Option β)
    (hr : ∀ s, p (StreamEvent.reasoningDelta s) = none) (o : Option String) :
    (reasoningChannelEvents o).filterMap p = [] := by
  unfold reasoningChannelEvents
  split <;> simp [hr]

/-- Elements of the content branch are reasoning or text deltas. -/
theorem filterMap_contentEvents {β : Type} (p : StreamEvent → Option β)
    (hr : ∀ s, p (StreamEvent.reasoningDelta s) = none)
    (ht : ∀ s, p (StreamEvent.textDelta s) = none) (o : Option String) :
    (contentEvents o).filterMap p = [] := by
  unfold contentEvents contentEventsOf
  split
  · simp only [List.filterMap_append]
    split <;> split <;> simp [hr, ht]
  · rfl

/-- Execution events are tool results (or nothing without a handler). -/
theorem filterMap_execEvents {β : Type} (p : StreamEvent → Option β)
    (h : ∀ i r b, p (StreamEvent.toolResult i r b) = none)
    (exec : Option ToolExec) (acc : ToolAcc) :
    (execEvents exec acc).filterMap p = [] := by
  unfold execEvents
  cases exec with
  | none => rfl
  | some f => cases hx : f acc.id acc.name acc.arguments <;> simp [hx, h]

/-- With a handler, executing one accumulated call yields exactly one tool
result carrying its identifier. -/
theorem execEvents_trIds (f : ToolExec) (acc : ToolAcc) :
    (execEvents (some f) acc).filterMap toolResultIdOf = [acc.id] := by
  unfold execEvents
  cases hx : f acc.id acc.name acc.arguments <;> simp [hx, toolResultIdOf]

/-- The tool-call identifiers of the tool phase, in table order. -/
theorem toolPhase_tcIds (exec : Option ToolExec) (tbl : List (Nat × ToolAcc)) :
    (toolPhaseEvents exec tbl).filterMap toolCallIdOf = tbl.map (fun p => p.2.id) := by
  induction tbl with
  | nil => rfl
  | cons p rest ih =>
    simp only [toolPhaseEvents, List.map_cons, List.flatten_cons, List.filterMap_append,
      List.filterMap_cons] at ih ⊢
    simp [toolCallIdOf, ih,
      filterMap_execEvents toolCallIdOf (fun _ _ _ => rfl) exec p.2]

/-- With a handler, the tool-result identifiers of the tool phase also
follow table order. -/
theorem toolPhase_trIds (f : ToolExec) (tbl : List (Nat × ToolAcc)) :
    (toolPhaseEvents (some f) tbl).filterMap toolResultIdOf = tbl.map (fun p => p.2.id) := by
  induction tbl with
  | nil => rfl
  | cons p rest ih =>
    simp only [toolPhaseEvents, List.map_cons, List.flatten_cons, List.filterMap_append,
      List.filterMap_cons] at ih ⊢
    simp [toolResultIdOf, execEvents_trIds, ih]

/-- Without a handler, the tool phase emits no tool results at all. -/
theorem toolPhase_trIds_none (tbl : List (Nat × ToolAcc)) :
    (toolPhaseEvents none tbl).filterMap toolResultIdOf = [] := by
  induction tbl with
  | nil => rfl
  | cons p rest ih =>
    simp only [toolPhaseEvents, List.map_cons, List.flatten_cons, List.filterMap_append,
      List.filterMap_cons] at ih ⊢
    simp [toolResultIdOf, execEvents, ih]

/-- The tool phase contains no finish events. -/
theorem toolPhase_finish_none (exec : Option ToolExec) (tbl : List (Nat × ToolAcc)) :
    (toolPhaseEvents exec tbl).filterMap finishOf = [] := by
  induction tbl with
  | nil => rfl
  | cons p rest ih =>
    simp only [toolPhaseEvents, List.map_cons, List.flatten_cons, List.filterMap_append,
      List.filterMap_cons] at ih ⊢
    simp [finishOf, ih, filterMap_execEvents finishOf (fun _ _ _ => rfl) exec p.2]

/-- Decomposition of the events of one chunk step. -/
theorem stepChunk_events (exec : Option ToolExec) (st : TState) (ch : Chunk) :
    (stepChunk exec st ch).2 =
      reasoningChannelEvents ch.reasoning_content ++ contentEvents ch.content ++
        finishEvents exec (ch.tool_calls.foldl applyFrag st.table) ch := rfl

/-- The table after one chunk step. -/
theorem stepChunk_table (exec : Option ToolExec) (st : TState) (ch : Chunk) :
    (stepChunk exec st ch).1.table = ch.tool_calls.foldl applyFrag st.table := rfl

/-- The finish events of the finish branch: exactly one per finish reason,
carrying that reason and the optionally converted usage. -/
theorem finishEvents_finishOf (exec : Option ToolExec) (tbl : List (Nat × ToolAcc)) (ch : Chunk) :
    (finishEvents exec tbl ch).filterMap finishOf =
      match ch.finish_reason with
      | some fin => [(fin, ch.usage.map convUsage)]
      | none => [] := by
  unfold finishEvents
  cases ch.finish_reason with
  | none => rfl
  | some fin =>
    simp only [List.filterMap_append, toolPhase_finish_none]
    split <;> simp [finishOf, toolPhase_finish_none]

/-- The finish events of one chunk step. -/
theorem stepChunk_finishOf (exec : Option ToolExec) (st : TState) (ch : Chunk) :
    ((stepChunk exec st ch).2).filterMap finishOf =
      match ch.finish_reason with
      | some fin => [(fin, ch.usage.map convUsage)]
      | none => [] := by
  rw [stepChunk_events]
  simp only [List.filterMap_append,
    filterMap_reasoningChannel finishOf (fun _ => rfl),
    filterMap_contentEvents finishOf (fun _ => rfl) (fun _ => rfl),
    finishEvents_finishOf]
  simp

/-- The tool-call identifiers of one chunk step with a handler equal its
tool-result identifiers. -/
theorem stepChunk_ids (f : ToolExec) (st : TState) (ch : Chunk) :
    ((stepChunk (some f) st ch).2).filterMap toolCallIdOf =
    ((stepChunk (some f) st ch).2).filterMap toolResultIdOf := by
  rw [stepChunk_events]
  simp only [List.filterMap_append,
    filterMap_reasoningChannel toolCallIdOf (fun _ => rfl),
    filterMap_reasoningChannel toolResultIdOf (fun _ => rfl),
    filterMap_contentEvents toolCallIdOf (fun _ => rfl) (fun _ => rfl),
    filterMap_contentEvents toolResultIdOf (fun _ => rfl) (fun _ => rfl)]
  unfold finishEvents
  cases ch.finish_reason with
  | none => rfl
  | some fin =>
    simp only [List.filterMap_append]
    split <;> simp [toolPhase_tcIds, toolPhase_trIds, toolCallIdOf, toolResultIdOf, finishOf]

/-! ## Claim C8 -/

/-- C8: Every emitted finish event carries the stream's actual finish
reason, and its usage field is present exactly when the terminal chunk
carried usage counters — when usage is absent the field is omitted
entirely, never defaulted to zero.  Stated as: the sequence of finish
events of a streamFoundryText run equals, in order, the finish-bearing
chunks' reasons paired with their usage counters mapped through the
normalizing conversion (so the event's usage is some exactly when the
chunk's usage was, with the converted counters, and none otherwise). -/
theorem c8_finish_reason_and_usage (exec : Option ToolExec) (chunks : List Chunk) :
    (streamFoundryText exec chunks).2.filterMap finishOf =
      (chunks.filter (fun c => c.finish_reason.isSome)).map
        (fun c => (c.finish_reason.getD "", c.usage.map convUsage)) := by
  unfold streamFoundryText
  generalize (⟨[], "", ""⟩ : TState) = st
  induction chunks generalizing st with
  | nil => rfl
  | cons ch rest ih =>
    simp only [runFrom, List.filterMap_append, stepChunk_finishOf, List.filter_cons]
    cases hf : ch.finish_reason <;> simp [hf, ih]

/-! ## Claim C1 -/

/-- C1 counterexample: without an onToolCall handler (the handler is an
optional parameter, and the in-repo callers of streamFoundryText omit it),
a tool-call event for identifier call_1 is emitted but no tool-result event
at all follows, refuting "exactly one tool-result event with that same
identifier is eventually emitted" for this stream. -/
theorem c1_counterexample :
    StreamEvent.toolCall "call_1" "getWeather" "ab" ∈ (streamFoundryText none csC1).2 ∧
    (streamFoundryText none csC1).2.filterMap toolResultIdOf = [] := by decide

/-- C1 amended: whenever an onToolCall handler is supplied, the sequence of
tool-call event identifiers equals the sequence of tool-result event
identifiers (so each tool-call event is matched by exactly one tool-result
event, in the same order, carrying a result payload or an error flag), and
in particular every identifier occurs equally often among tool-call and
tool-result events — including when the handler throws, since a thrown
error message becomes a tool-result with the error flag set. -/
theorem c1_tool_result_pairing (f : ToolExec) (chunks : List Chunk) :
    ((streamFoundryText (some f) chunks).2.filterMap toolCallIdOf =
       (streamFoundryText (some f) chunks).2.filterMap toolResultIdOf) ∧
    ∀ cid : String,
      ((streamFoundryText (some f) chunks).2.filterMap toolCallIdOf).count cid =
      ((streamFoundryText (some f) chunks).2.filterMap toolResultIdOf).count cid := by
  have key : ∀ (st : TState) (cs : List Chunk),
      (runFrom (some f) st cs).2.filterMap toolCallIdOf =
      (runFrom (some f) st cs).2.filterMap toolResultIdOf := by
    intro st cs
    induction cs generalizing st with
    | nil => rfl
    | cons ch rest ih =>
      simp only [runFrom, List.filterMap_append, stepChunk_ids, ih]
  refine ⟨key _ chunks, fun cid => ?_⟩
  unfold streamFoundryText
  rw [key _ chunks]

/-! ## Claim C6 -/

/-- C6 counterexample: the accumulation table is a JS Map iterated in
insertion order, so when position 1 is inserted before position 0 the
tool-call events come out as b then a — position (index) order would be a
then b — refuting "in position (index) order — not in insertion order". -/
theorem c6_counterexample :
    (streamFoundryText none csC6).2.filterMap toolCallIdOf = ["b", "a"] ∧
    (["b", "a"] : List String) ≠ ["a", "b"] := by decide

/-- C6 amended: when a finish reason tool_calls arrives, one tool-call
event is emitted per accumulated entry in insertion order (the order in
which positions first received an identifier-bearing fragment), and — when
a handler is supplied — the tool-result events follow that same order;
without a handler no tool-result events are emitted. -/
theorem c6_emission_order (exec : Option ToolExec) (st : TState) (ch : Chunk)
    (h : ch.finish_reason = some "tool_calls") :
    ((stepChunk exec st ch).2).filterMap toolCallIdOf =
      (ch.tool_calls.foldl applyFrag st.table).map (fun p => p.2.id) ∧
    ((stepChunk exec st ch).2).filterMap toolResultIdOf =
      (if exec.isSome then (ch.tool_calls.foldl applyFrag st.table).map (fun p => p.2.id)
       else []) := by
  rw [stepChunk_events]
  simp only [List.filterMap_append,
    filterMap_reasoningChannel toolCallIdOf (fun _ => rfl),
    filterMap_reasoningChannel toolResultIdOf (fun _ => rfl),
    filterMap_contentEvents toolCallIdOf (fun _ => rfl) (fun _ => rfl),
    filterMap_contentEvents toolResultIdOf (fun _ => rfl) (fun _ => rfl)]
  unfold finishEvents
  rw [h]
  simp only [List.filterMap_append]
  constructor
  · split
    · simp [toolPhase_tcIds, toolCallIdOf]
    · rename_i hg
      have : ch.tool_calls.foldl applyFrag st.table = [] := by
        by_contra hne
        exact hg ⟨by trivial, hne⟩
      simp [this, toolCallIdOf]
  · cases exec with
    | none => split <;> simp [toolPhase_trIds_none, toolResultIdOf]
    | some f =>
      split
      · simp [toolPhase_trIds, toolResultIdOf]
      · rename_i hg
        have : ch.tool_calls.foldl applyFrag st.table = [] := by
          by_contra hne
          exact hg ⟨by trivial, hne⟩
        simp [this, toolResultIdOf]

/-! ## Per-position view of the accumulation table -/

theorem mapLookup_mapSet (tbl : List (Nat × ToolAcc)) (i j : Nat) (v : ToolAcc) :
    mapLookup (mapSet tbl j v) i = if j = i then some v else mapLookup tbl i := by
  induction tbl with
  | nil => simp [mapSet, mapLookup]
  | cons p rest ih =>
    by_cases hp : p.1 = j
    · simp only [mapSet, if_pos hp]
      by_cases hj : j = i <;> simp [mapLookup, hj, hp, ih]
    · simp only [mapSet, if_neg hp]
      by_cases hpi : p.1 = i
      · have hj : ¬ j = i := fun e => hp (e ▸ hpi)
        simp [mapLookup, hpi, hj]
      · simp [mapLookup, hpi, ih]

/-- Lookup after one fragment: only the entry at the fragment's own
position changes, and it changes by `applyFragAt`. -/
theorem mapLookup_applyFrag (tbl : List (Nat × ToolAcc)) (f : ToolCallFragment) (i : Nat) :
    mapLookup (applyFrag tbl f) i =
      if f.index = i then applyFragAt (mapLookup tbl i) f else mapLookup tbl i := by
  unfold applyFrag applyFragAt
  by_cases hid : truthyO f.id
  · simp [hid, mapLookup_mapSet]
  · simp only [if_neg hid]
    rcases hl : mapLookup tbl f.index with _ | acc
    · by_cases hfi : f.index = i
      · subst hfi
        simp [hl]
      · simp [hfi]
    · by_cases hargs : truthyO f.args
      · simp only [if_pos hargs, mapLookup_mapSet]
        by_cases hfi : f.index = i
        · subst hfi
          simp [hl]
        · simp [hfi]
      · simp only [if_neg hargs]
        by_cases hfi : f.index = i
        · subst hfi
          simp [hl, hargs]
        · simp [hfi]

/-- Lookup after a fragment list: the entry at position i is the fold of
`applyFragAt` over exactly the fragments addressed to position i. -/
theorem mapLookup_foldl (frags : List ToolCallFragment) (tbl : List (Nat × ToolAcc)) (i : Nat) :
    mapLookup (frags.foldl applyFrag tbl) i =
      (frags.filter (fun f => f.index == i)).foldl applyFragAt (mapLookup tbl i) := by
  induction frags generalizing tbl with
  | nil => rfl
  | cons f rest ih =>
    by_cases hfi : f.index = i
    · have hb : (f.index == i) = true := by simp [hfi]
      simp [List.filter_cons, hb, ih, mapLookup_applyFrag, hfi]
    · have hb : (f.index == i) = false := by simp [hfi]
      simp [List.filter_cons, hb, ih, mapLookup_applyFrag, hfi]

/-- A successful lookup exhibits a table entry. -/
theorem mem_of_mapLookup (tbl : List (Nat × ToolAcc)) (i : Nat) (acc : ToolAcc)
    (h : mapLookup tbl i = some acc) : (i, acc) ∈ tbl := by
  induction tbl with
  | nil => cases h
  | cons p rest ih =>
    simp only [mapLookup] at h
    split at h
    · rename_i hp
      cases h
      refine List.mem_cons.mpr (Or.inl ?_)
      obtain ⟨p1, p2⟩ := p
      simp only [Prod.mk.injEq]
      exact ⟨hp.symm, trivial⟩
    · exact List.mem_cons.mpr (Or.inr (ih h))

/-! ## Claim C9 -/

theorem zFieldSchemas_map (fields : List (String × ZodType)) :
    zFieldSchemas fields = fields.map (fun p => (p.1, zodToJsonSchema p.2)) := by
  induction fields with
  | nil => rfl
  | cons p rest ih =>
    obtain ⟨k, v⟩ := p
    simp [zFieldSchemas, ih]

/-- C9: the parameter-schema conversion maps the supported constructors to
their JSON Schema counterparts: an object maps to a JSON Schema object
whose properties are the converted fields and whose required list (omitted
when empty) holds exactly the non-optional keys, in order; string, number,
boolean, array-of-T and enum-of-strings map to their counterparts; an
optional wrapper is unwrapped (and, being optional, excluded from any
required list by the membership characterization); a union maps to the
schema of its first alternative. -/
theorem c9_schema_conversion :
    (∀ fields, zodToJsonSchema (ZodType.zobject fields) =
      JsonSchema.jobject (fields.map (fun p => (p.1, zodToJsonSchema p.2)))
        (if (zRequiredKeys fields).length > 0 then some (zRequiredKeys fields) else none)) ∧
    (∀ fields (k : String), k ∈ zRequiredKeys fields ↔
      ∃ v, (k, v) ∈ fields ∧ isZodOptional v = false) ∧
    (∀ d, zodToJsonSchema (ZodType.zstring d) = JsonSchema.jstring d) ∧
    (∀ d, zodToJsonSchema (ZodType.znumber d) = JsonSchema.jnumber d) ∧
    (zodToJsonSchema ZodType.zboolean = JsonSchema.jboolean) ∧
    (∀ t, zodToJsonSchema (ZodType.zarray t) = JsonSchema.jarray (zodToJsonSchema t)) ∧
    (∀ vs, zodToJsonSchema (ZodType.zenum vs) = JsonSchema.jenum vs) ∧
    (∀ t, zodToJsonSchema (ZodType.zoptional t) = zodToJsonSchema t) ∧
    (∀ first rest, zodToJsonSchema (ZodType.zunion first rest) = zodToJsonSchema first) := by
  refine ⟨?_, ?_, fun _ => rfl, fun _ => rfl, rfl, fun _ => rfl, fun _ => rfl,
    fun _ => rfl, fun _ _ => rfl⟩
  · intro fields
    rw [zodToJsonSchema, zFieldSchemas_map]
  · intro fields k
    unfold zRequiredKeys
    constructor
    · intro h
      rw [List.mem_map] at h
      obtain ⟨p, hp, hk⟩ := h
      rw [List.mem_filter] at hp
      refine ⟨p.2, ?_, ?_⟩
      · rw [← hk]
        exact hp.1
      · have := hp.2
        simp only [Bool.not_eq_true'] at this
        exact this
    · intro h
      obtain ⟨v, hv, hopt⟩ := h
      rw [List.mem_map]
      refine ⟨(k, v), ?_, rfl⟩
      rw [List.mem_filter]
      exact ⟨hv, by simp [hopt]⟩

/-! ## Claim C2 -/

/-- Every event written during the continuation loop is a plain text part:
content deltas and the informational additional-tool lines. -/
theorem contLoop_textParts (tbl : List (Nat × ToolAcc)) (cont : List Chunk) :
    (contLoop tbl cont).all isTextPart = true := by
  induction cont generalizing tbl with
  | nil => rfl
  | cons ch rest ih =>
    simp only [contLoop, List.all_append, Bool.and_eq_true]
    refine ⟨?_, ih _⟩
    unfold contStep
    simp only [List.all_append, Bool.and_eq_true]
    constructor
    · split <;> simp [isTextPart]
    · split
      · simp only [List.all_eq_true]
        intro x hx
        rw [List.mem_map] at hx
        obtain ⟨p, _, hp⟩ := hx
        rw [← hp]
        rfl
      · rfl

/-- C2: at most one continuation round per top-level turn.  The tool calls
handed to the tool dispatch are exactly the accumulations of the main
stream — they do not depend on the continuation stream at all, so a
continuation that itself finishes with tool_calls triggers no second
tool-execution phase — and every event of the continuation loop is an
informational text part (the second round's tool calls are surfaced only as
text deltas, never executed). -/
theorem c2_single_continuation_round (exec : PostExec) (main cont1 cont2 : List Chunk) :
    (chatRoutePOST exec main cont1).executed = (chatRoutePOST exec main cont2).executed ∧
    (chatRoutePOST exec main cont1).executed =
      (postAccum main).map (fun p => (p.2.name, p.2.arguments)) ∧
    (chatRoutePOST exec main cont1).contEvents.all isTextPart = true := by
  unfold chatRoutePOST
  by_cases h : postAccum main = [] <;>
    simp [h, contLoop_textParts]

/-! ## Claim C7 -/

/-- Content-only chunks extend the buffer by the joined fragments and never
touch the finish-attempt counter. -/
theorem runObjFrom_content {α : Type} (parse : String → Option α) (st : ObjState)
    (xs : List String) :
    ((runObjFrom parse st (xs.map (fun s => ({ content := some s } : ObjChunk)))).1.buffer =
      st.buffer ++ String.join xs) ∧
    ((runObjFrom parse st (xs.map (fun s => ({ content := some s } : ObjChunk)))).1.finAttempts =
      st.finAttempts) := by
  induction xs generalizing st with
  | nil => exact ⟨(String.append_empty st.buffer).symm, rfl⟩
  | cons x rest ih =>
    simp only [List.map_cons, runObjFrom]
    by_cases hx : truthyO (some x)
    · have hstep : (stepObj parse st { content := some x }).1 =
          ⟨st.buffer ++ x, st.midAttempts + 1, st.finAttempts⟩ := by
        unfold stepObj
        simp only [if_pos hx]
        cases parse (st.buffer ++ (some x).getD "") <;> simp
      rw [hstep]
      have := ih ⟨st.buffer ++ x, st.midAttempts + 1, st.finAttempts⟩
      simp only at this
      rw [this.1, this.2]
      exact ⟨by rw [sjoin_cons, String.append_assoc], rfl⟩
    · have hx0 : x = "" := not_ne_iff.mp hx
      subst hx0
      have hstep : (stepObj parse st { content := some "" }).1 = st := by
        unfold stepObj
        simp [truthyO]
      rw [hstep]
      have h2 := ih st
      refine ⟨?_, h2.2⟩
      rw [h2.1, sjoin_cons, String.empty_append]

/-- Append law for the object-stream loop. -/
theorem runObjFrom_append {α : Type} (parse : String → Option α) (st : ObjState)
    (l1 l2 : List ObjChunk) :
    runObjFrom parse st (l1 ++ l2) =
      ((runObjFrom parse (runObjFrom parse st l1).1 l2).1,
       (runObjFrom parse st l1).2 ++ (runObjFrom parse (runObjFrom parse st l1).1 l2).2) := by
  induction l1 generalizing st with
  | nil => simp [runObjFrom]
  | cons ch rest ih => simp [runObjFrom, ih]

/-- C7: partial-object materialization is split-invariant.  For any parse
function and any two fragmentations of the same complete, successfully
parsing text, the run over the fragments followed by a finish chunk ends
with the parsed value as its last (authoritative) object — mid-stream
parse failures only suppress intermediate yields — and the finish signal
causes exactly one additional parse attempt. -/
theorem c7_split_invariance {α : Type} (parse : String → Option α) (xs ys : List String)
    (v : α) (hj : String.join xs = String.join ys)
    (hp : parse (String.join xs) = some v) :
    lastObject (streamFoundryObject parse
        (xs.map (fun s => { content := some s }) ++ [{ finish_reason := some "stop" }])).2 =
      some v ∧
    lastObject (streamFoundryObject parse
        (ys.map (fun s => { content := some s }) ++ [{ finish_reason := some "stop" }])).2 =
      some v ∧
    (streamFoundryObject parse
        (xs.map (fun s => { content := some s }) ++ [{ finish_reason := some "stop" }])).1.finAttempts
      = 1 := by
  have general : ∀ (zs : List String), String.join zs = String.join xs →
      lastObject (streamFoundryObject parse
          (zs.map (fun s => { content := some s }) ++ [{ finish_reason := some "stop" }])).2 =
        some v ∧
      (streamFoundryObject parse
          (zs.map (fun s => { content := some s }) ++ [{ finish_reason := some "stop" }])).1.finAttempts
        = 1 := by
    intro zs hz
    unfold streamFoundryObject
    rw [runObjFrom_append]
    have hbuf := runObjFrom_content parse ⟨"", 0, 0⟩ zs
    set st1 := (runObjFrom parse ⟨"", 0, 0⟩
      (zs.map (fun s => ({ content := some s } : ObjChunk)))).1 with hst1
    have hb : st1.buffer = String.join zs := by
      have h1 := hbuf.1
      simpa [String.empty_append] using h1
    have hf : st1.finAttempts = 0 := hbuf.2
    have hparse : parse st1.buffer = some v := by
      rw [hb, hz, hp]
    have hstep : stepObj parse st1 ({ finish_reason := some "stop" } : ObjChunk) =
        (⟨st1.buffer, st1.midAttempts, st1.finAttempts + 1⟩,
         [ObjEvent.object v, ObjEvent.finish]) := by
      unfold stepObj
      simp [truthyO, hparse]
    constructor
    · simp only [runObjFrom, hstep, List.append_nil]
      unfold lastObject
      rw [List.foldl_append]
      rfl
    · simp only [runObjFrom, hstep, List.append_nil]
      simp [hf]
  exact ⟨(general xs rfl).1, (general ys hj.symm).1, (general xs rfl).2⟩

/-- Witness for C7: the string 42 fed whole or split as 4 then 2 yields the
same final object, with one finish-time parse attempt. -/
theorem c7_split_invariance_witness :
    lastObject (streamFoundryObject parseW
        (["42"].map (fun s => { content := some s }) ++
         [{ finish_reason := some "stop" }])).2 = some 42 ∧
    lastObject (streamFoundryObject parseW
        (["4", "2"].map (fun s => { content := some s }) ++
         [{ finish_reason := some "stop" }])).2 = some 42 ∧
    (streamFoundryObject parseW
        (["42"].map (fun s => { content := some s }) ++
         [{ finish_reason := some "stop" }])).1.finAttempts = 1 :=
  c7_split_invariance parseW ["42"] ["4", "2"] 42 (by decide) (by decide)

/-! ## Claim C3 -/

theorem contentEventsOf_text (c : String) :
    String.join ((contentEventsOf c).filterMap textDeltaOf) = vOf c := by
  unfold contentEventsOf vOf
  by_cases h2 : truthyS (extractReasoningFromContent c).2 <;>
    by_cases h1 : truthyS ((extractReasoningFromContent c).1.getD "") <;>
    simp [h1, h2, textDeltaOf, sjoin_cons, String.join, String.append_empty]

theorem contentEventsOf_reasoning (c : String) :
    String.join ((contentEventsOf c).filterMap reasoningDeltaOf) = rOf c := by
  unfold contentEventsOf rOf
  by_cases h2 : truthyS (extractReasoningFromContent c).2 <;>
    by_cases h1 : truthyS ((extractReasoningFromContent c).1.getD "") <;>
    simp [h1, h2, reasoningDeltaOf, sjoin_cons, String.join, String.append_empty] <;>
    exact (not_ne_iff.mp h1).symm

/-- On a pure text stream, the run produces exactly the per-fragment
content events, concatenated. -/
theorem runFrom_textChunks (exec : Option ToolExec) (st : TState) (frags : List String) :
    (runFrom exec st (frags.map (fun c => ({ content := some c } : Chunk)))).2 =
      (frags.map (fun c => contentEvents (some c))).flatten := by
  induction frags generalizing st with
  | nil => rfl
  | cons c rest ih =>
    simp only [List.map_cons, runFrom, List.flatten_cons]
    rw [ih]
    rw [stepChunk_events]
    simp [reasoningChannelEvents, finishEvents, truthyO]

theorem sjoin_flatten (l : List (List String)) :
    String.join l.flatten = String.join (l.map String.join) := by
  induction l with
  | nil => rfl
  | cons x rest ih => simp [sjoin_append, sjoin_cons, ih]

theorem contentEvents_join_text (c : String) :
    String.join ((contentEvents (some c)).filterMap textDeltaOf) = vOf c := by
  unfold contentEvents
  by_cases h : truthyO (some c)
  · simp only [if_pos h]
    exact contentEventsOf_text c
  · have hc : c = "" := not_ne_iff.mp h
    subst hc
    simp only [if_neg h, List.filterMap_nil]
    decide

theorem contentEvents_join_reasoning (c : String) :
    String.join ((contentEvents (some c)).filterMap reasoningDeltaOf) = rOf c := by
  unfold contentEvents
  by_cases h : truthyO (some c)
  · simp only [if_pos h]
    exact contentEventsOf_reasoning c
  · have hc : c = "" := not_ne_iff.mp h
    subst hc
    simp only [if_neg h, List.filterMap_nil]
    decide

/-- C3 counterexample: the source trims the fragment after removing the
spans, so the emitted text is B while the fragment with the spans removed
(what the claim asserts) is the untrimmed space-B. -/
theorem c3_counterexample :
    String.join ((streamFoundryText none csC3).2.filterMap textDeltaOf) = "B" ∧
    String.mk ((scanSpans "<thinking>t</thinking> B".data).2) = " B" ∧
    ("B" : String) ≠ " B" := by decide

/-- C3 amended: on a chunk stream of text fragments (no tool-call
fragments, no out-of-band reasoning), the concatenation of the text-delta
payloads is the concatenation over fragments of their visible contribution
(the fragment with its spans removed and trimmed when a span closes in it,
the raw fragment when no span is found — or when both the trimmed
remainder and the extracted reasoning are empty — and nothing otherwise),
and the concatenation of the reasoning-delta payloads is the concatenation
over fragments of the per-fragment extracted reasoning (the span inner
texts, tags stripped and trimmed, joined with a blank line within each
fragment). -/
theorem c3_delta_concatenation (frags : List String) :
    String.join
        (((streamFoundryText none (frags.map (fun c => { content := some c }))).2).filterMap
          textDeltaOf) = String.join (frags.map vOf) ∧
    String.join
        (((streamFoundryText none (frags.map (fun c => { content := some c }))).2).filterMap
          reasoningDeltaOf) = String.join (frags.map rOf) := by
  unfold streamFoundryText
  rw [runFrom_textChunks]
  constructor
  · rw [List.filterMap_flatten, sjoin_flatten]
    rw [List.map_map, List.map_map]
    apply congrArg
    apply List.map_congr_left
    intro c _
    exact contentEvents_join_text c
  · rw [List.filterMap_flatten, sjoin_flatten]
    rw [List.map_map, List.map_map]
    apply congrArg
    apply List.map_congr_left
    intro c _
    exact contentEvents_join_reasoning c

/-! ## Claim C4 -/

theorem allFrags_append (l1 l2 : List Chunk) :
    allFrags (l1 ++ l2) = allFrags l1 ++ allFrags l2 := by
  simp [allFrags]

/-- The accumulation table after a run is the fold of all tool-call
fragments over the initial table, independently of text and finishes. -/
theorem table_runFrom (exec : Option ToolExec) (st : TState) (cs : List Chunk) :
    (runFrom exec st cs).1.table = (allFrags cs).foldl applyFrag st.table := by
  induction cs generalizing st with
  | nil => rfl
  | cons ch rest ih =>
    simp only [runFrom, allFrags, List.map_cons, List.flatten_cons, List.foldl_append]
    rw [ih]
    simp [stepChunk_table, allFrags]

/-- Folding argument-only fragments over an existing entry appends the
concatenation of their argument texts. -/
theorem foldl_applyFragAt_args (rest : List ToolCallFragment) (acc : ToolAcc)
    (hrest : ∀ f ∈ rest, ¬ truthyO f.id) :
    rest.foldl applyFragAt (some acc) =
      some ⟨acc.id, acc.name,
            acc.arguments ++ String.join (rest.map (fun f => f.args.getD ""))⟩ := by
  induction rest generalizing acc with
  | nil => simp [String.join]
  | cons f rest ih =>
    have hf : ¬ truthyO f.id := hrest f (List.mem_cons_self f rest)
    have hstep : applyFragAt (some acc) f =
        some ⟨acc.id, acc.name, acc.arguments ++ f.args.getD ""⟩ := by
      unfold applyFragAt
      rw [if_neg hf]
      by_cases hargs : truthyO f.args
      · simp [hargs]
      · have : f.args.getD "" = "" := by
          by_contra hne
          exact hargs hne
        simp [hargs, this, String.append_empty]
    simp only [List.foldl_cons, hstep]
    rw [ih _ (fun g hg => hrest g (List.mem_cons_of_mem f hg))]
    simp [sjoin_cons, String.append_assoc]

/-- Every table entry produces its tool-call event in the tool phase. -/
theorem toolCall_mem_toolPhase (exec : Option ToolExec) (tbl : List (Nat × ToolAcc))
    (i : Nat) (acc : ToolAcc) (h : (i, acc) ∈ tbl) :
    StreamEvent.toolCall acc.id acc.name acc.arguments ∈ toolPhaseEvents exec tbl := by
  unfold toolPhaseEvents
  rw [List.mem_flatten]
  refine ⟨StreamEvent.toolCall acc.id acc.name acc.arguments :: execEvents exec acc, ?_, ?_⟩
  · rw [List.mem_map]
    exact ⟨(i, acc), h, rfl⟩
  · exact List.mem_cons_self _ _

/-- C4: for a well-formed fragment sequence at position i (one
identifier-bearing fragment first, then argument-only fragments), a run
whose last chunk finishes with tool_calls emits a tool-call event whose
arguments are the exact concatenation, in arrival order, of the argument
texts carried by the fragments at that position (the identifier-bearing
fragment's own argument text first), and the final table entry at i holds
exactly that accumulated call. -/
theorem c4_argument_concatenation (exec : Option ToolExec) (body : List Chunk)
    (fin : Chunk) (i : Nat) (f0 : ToolCallFragment) (rest : List ToolCallFragment)
    (hfin : fin.finish_reason = some "tool_calls")
    (hfrags : (allFrags (body ++ [fin])).filter (fun f => f.index == i) = f0 :: rest)
    (hid : truthyO f0.id)
    (hrest : ∀ f ∈ rest, ¬ truthyO f.id) :
    mapLookup ((allFrags (body ++ [fin])).foldl applyFrag []) i =
      some ⟨f0.id.getD "", f0.name.getD "",
            f0.args.getD "" ++ String.join (rest.map (fun f => f.args.getD ""))⟩ ∧
    StreamEvent.toolCall (f0.id.getD "") (f0.name.getD "")
        (f0.args.getD "" ++ String.join (rest.map (fun f => f.args.getD "")))
      ∈ (streamFoundryText exec (body ++ [fin])).2 := by
  have hacc : mapLookup ((allFrags (body ++ [fin])).foldl applyFrag []) i =
      some ⟨f0.id.getD "", f0.name.getD "",
            f0.args.getD "" ++ String.join (rest.map (fun f => f.args.getD ""))⟩ := by
    rw [mapLookup_foldl, hfrags]
    simp only [List.foldl_cons]
    have h0 : applyFragAt (mapLookup [] i) f0 =
        some ⟨f0.id.getD "", f0.name.getD "", f0.args.getD ""⟩ := by
      unfold applyFragAt
      rw [if_pos hid]
    rw [h0, foldl_applyFragAt_args rest _ hrest]
  refine ⟨hacc, ?_⟩
  unfold streamFoundryText
  rw [runFrom_append]
  refine List.mem_append.mpr (Or.inr ?_)
  set st1 := (runFrom exec ⟨[], "", ""⟩ body).1 with hst1
  have htbl : fin.tool_calls.foldl applyFrag st1.table =
      (allFrags (body ++ [fin])).foldl applyFrag [] := by
    rw [allFrags_append, List.foldl_append]
    have : st1.table = (allFrags body).foldl applyFrag [] := by
      rw [hst1, table_runFrom]
    rw [this]
    simp [allFrags]
  have hmem : ((i, (⟨f0.id.getD "", f0.name.getD "",
      f0.args.getD "" ++ String.join (rest.map (fun f => f.args.getD ""))⟩ : ToolAcc)))
      ∈ fin.tool_calls.foldl applyFrag st1.table := by
    apply mem_of_mapLookup
    rw [htbl]
    exact hacc
  have hne : fin.tool_calls.foldl applyFrag st1.table ≠ [] := by
    intro he
    rw [he] at hmem
    cases hmem
  simp only [runFrom, List.append_nil]
  rw [stepChunk_events]
  refine List.mem_append.mpr (Or.inr ?_)
  have hfe : finishEvents exec (fin.tool_calls.foldl applyFrag st1.table) fin =
      toolPhaseEvents exec (fin.tool_calls.foldl applyFrag st1.table) ++
        [StreamEvent.finish "tool_calls" (fin.usage.map convUsage)] := by
    simp [finishEvents, hfin, hne]
  rw [hfe]
  refine List.mem_append.mpr (Or.inl ?_)
  exact toolCall_mem_toolPhase exec _ i _ hmem

/-- Witness for C4: an identifier-bearing fragment with argument text ab
followed by an argument-only fragment cd accumulates arguments abcd. -/
theorem c4_argument_concatenation_witness :
    StreamEvent.toolCall "call_1" "getWeather" "abcd" ∈
      (streamFoundryText none
        ([{ tool_calls := [⟨0, some "call_1", some "getWeather", some "ab"⟩,
                           ⟨0, none, none, some "cd"⟩] }] ++
         [{ finish_reason := some "tool_calls" }])).2 := by
  have h := (c4_argument_concatenation none
    [{ tool_calls := [⟨0, some "call_1", some "getWeather", some "ab"⟩,
                      ⟨0, none, none, some "cd"⟩] }]
    { finish_reason := some "tool_calls" } 0
    ⟨0, some "call_1", some "getWeather", some "ab"⟩
    [⟨0, none, none, some "cd"⟩]
    rfl (by decide) (by decide) (by decide)).2
  exact h

/-! ## Claim C5 -/

/-- C5 counterexample: two identifier-bearing fragments for position 0.
The second one overwrites the accumulation — identifier, name and argument
text are all replaced — instead of being "ignored defensively and
overwriting nothing", which would have kept the first entry. -/
theorem c5_counterexample :
    mapLookup ([⟨0, some "a", some "toolA", some "x"⟩,
                ⟨0, some "b", some "toolB", some "y"⟩].foldl applyFrag []) 0 =
      some ⟨"b", "toolB", "y"⟩ ∧
    some (⟨"b", "toolB", "y"⟩ : ToolAcc) ≠ some (⟨"a", "toolA", "x"⟩ : ToolAcc) := by decide

/-- C5 amended: the identifier at a position is changed only by a later
identifier-bearing fragment, which restarts the whole accumulation at that
position (identifier, name and argument text); an argument-only fragment
for an existing position never touches identifier or name and only appends
its argument text; any other fragment leaves the entry unchanged. -/
theorem c5_accumulation_update (tbl : List (Nat × ToolAcc)) (f : ToolCallFragment)
    (acc : ToolAcc) (h : mapLookup tbl f.index = some acc) :
    mapLookup (applyFrag tbl f) f.index =
      some (if truthyO f.id then ⟨f.id.getD "", f.name.getD "", f.args.getD ""⟩
            else if truthyO f.args then ⟨acc.id, acc.name, acc.arguments ++ f.args.getD ""⟩
            else acc) := by
  rw [mapLookup_applyFrag, if_pos rfl, h]
  unfold applyFragAt
  by_cases hid : truthyO f.id
  · simp [hid]
  · by_cases hargs : truthyO f.args <;> simp [hid, hargs]

/-- Witness for the amended C5: an argument-only fragment appends. -/
theorem c5_accumulation_update_witness :
    mapLookup (applyFrag [(0, ⟨"a", "toolA", "x"⟩)] ⟨0, none, none, some "y"⟩) 0 =
      some ⟨"a", "toolA", "xy"⟩ := by
  rw [c5_accumulation_update [(0, ⟨"a", "toolA", "x"⟩)] ⟨0, none, none, some "y"⟩
    ⟨"a", "toolA", "x"⟩ rfl]
  decide

/-! ## Claim C10 -/

/-- C10: an argument-only tool-call fragment whose position has no existing
accumulation leaves the state (in particular the table) unchanged and emits
no event: the fragment is silently dropped. -/
theorem c10_orphan_fragment_dropped (exec : Option ToolExec) (st : TState)
    (f : ToolCallFragment) (h1 : ¬ truthyO f.id)
    (h2 : mapLookup st.table f.index = none) :
    stepChunk exec st { tool_calls := [f] } = (st, []) := by
  have htbl : applyFrag st.table f = st.table := by
    unfold applyFrag
    rw [if_neg h1, h2]
  unfold stepChunk
  simp [htbl, reasoningChannelEvents, contentEvents, finishEvents, truthyO]

/-- Witness for C10 at a concrete orphan fragment. -/
theorem c10_orphan_fragment_dropped_witness :
    stepChunk none ⟨[], "", ""⟩
      { tool_calls := [⟨0, none, none, some "x"⟩] } = (⟨[], "", ""⟩, []) :=
  c10_orphan_fragment_dropped none ⟨[], "", ""⟩ ⟨0, none, none, some "x"⟩
    (by decide) rfl

/-- Witness for the amended C6 at a concrete chunk. -/
theorem c6_emission_order_witness :
    ((stepChunk (some okExec) ⟨[], "", ""⟩
        { tool_calls := [⟨1, some "b", some "toolB", some ""⟩,
                         ⟨0, some "a", some "toolA", some ""⟩],
          finish_reason := some "tool_calls" }).2).filterMap toolCallIdOf = ["b", "a"] := by
  have h := (c6_emission_order (some okExec) ⟨[], "", ""⟩
    { tool_calls := [⟨1, some "b", some "toolB", some ""⟩,
                     ⟨0, some "a", some "toolA", some ""⟩],
      finish_reason := some "tool_calls" } rfl).1
  rw [h]
  decide

end Lorelai
